import Mathlib

/-!
Shallow embedding of the rla-verifier repository (src/utils.py, src/audits.py).

Vote counts are Python dicts from identifier to non-negative integer; they are
modelled as association lists (`List (ι × ℕ)`) when iteration order matters
(dict insertion order) and as total functions `ι → ℕ` when only lookup is used.
Python's arbitrary-precision arithmetic (int, Decimal) is modelled by `ℚ`.
Python's `sorted(..., key=..., reverse=True)` is a stable descending sort; it is
modelled by `List.insertionSort` with a descending total preorder, which is
extensionally the unique stable sort for that preorder.
Functions that can raise (`ZeroDivisionError`) are modelled with `Option`.
-/

set_option linter.unusedSectionVars false

namespace RLA

variable {ι : Type} [DecidableEq ι]

/-- Descending comparison on (id, value) pairs: the relation used by
`sorted(tuples, key=itemgetter(1), reverse=True)` in `get_W_L_sets`. -/
def descBy {ι β : Type} [LinearOrder β] : (ι × β) → (ι × β) → Prop :=
  fun a b => b.2 ≤ a.2

instance {ι β : Type} [LinearOrder β] : DecidableRel (descBy (ι := ι) (β := β)) :=
  fun a b => inferInstanceAs (Decidable (b.2 ≤ a.2))

instance {ι β : Type} [LinearOrder β] : IsTotal (ι × β) descBy :=
  ⟨fun a b => le_total b.2 a.2⟩

instance {ι β : Type} [LinearOrder β] : IsTrans (ι × β) descBy :=
  ⟨fun _ _ _ h1 h2 => le_trans h2 h1⟩

/-- utils.get_W_L_sets: sort the (id, votes) items descending by votes (stable),
winners are the ids of the first n_winners items, losers the ids of the rest. -/
def get_W_L_sets {β : Type} [LinearOrder β] (vote_count : List (ι × β)) (n_winners : ℕ) :
    List ι × List ι :=
  let sorted_tuples := List.insertionSort descBy vote_count
  ((sorted_tuples.take n_winners).map Prod.fst, (sorted_tuples.drop n_winners).map Prod.fst)

/-- utils.d: divisor of column s. -/
def d (s : ℕ) : ℕ := s + 1

/-- utils.gamma: likelihood ratio between pseudo candidates p and q, given a
vote for p.  y1 = t(p)/(t(p)+t(q)), y2 = (d(Sw[p])+d(Sl[q]))/d(Sw[p]). -/
def gamma (p q : ι) (vote_count : ι → ℕ) (Sw Sl : ι → ℕ) : ℚ :=
  ((vote_count p : ℚ) / ((vote_count p : ℚ) + (vote_count q : ℚ))) *
    (((d (Sw p) : ℚ) + (d (Sl q) : ℚ)) / (d (Sw p) : ℚ))

/-- Dict-of-dicts lookup on association lists (Python dict access T[w][l]). -/
def lookupA {β : Type} : List (ι × β) → ι → Option β
  | [], _ => none
  | (k, v) :: rest, key => if key = k then some v else lookupA rest key

/-- The test-statistic matrix T, keyed winner then loser, as nested
association lists (dict-of-dicts with insertion order). -/
def Tget (T : List (ι × List (ι × ℚ))) (w l : ι) : Option ℚ :=
  (lookupA T w).bind fun row => lookupA row l

/-- One entry update of utils.ballot_polling_SPRT: below the threshold the
entry is multiplied by gamma(w,l)^recount[w] * gamma(l,w)^recount[l];
at or above the threshold it is left unchanged. -/
def updateEntry (vote_count recount : ι → ℕ) (risk_limit : ℚ) (Sw Sl : ι → ℕ)
    (w l : ι) (tv : ℚ) : ℚ :=
  if tv < 1 / risk_limit then
    tv * gamma w l vote_count Sw Sl ^ recount w * gamma l w vote_count Sl Sw ^ recount l
  else tv

/-- utils.ballot_polling_SPRT: updates every (winner, loser) entry of T and
returns the new T together with the maximum of 1/T[w][l] over all pairs. -/
def ballot_polling_SPRT (vote_count recount : ι → ℕ) (risk_limit : ℚ) (Sw Sl : ι → ℕ)
    (T : List (ι × List (ι × ℚ))) : List (ι × List (ι × ℚ)) × ℚ :=
  let T2 := T.map fun wr =>
    (wr.1, wr.2.map fun lt => (lt.1, updateEntry vote_count recount risk_limit Sw Sl wr.1 lt.1 lt.2))
  (T2, T2.foldl (fun acc wr => wr.2.foldl (fun a lt => max a (1 / lt.2)) acc) 0)

/-- Folding ballot_polling_SPRT over a sequence of recounts (repeated calls,
keeping only the matrix component). -/
def sprtIter (vote_count : ι → ℕ) (risk_limit : ℚ) (Sw Sl : ι → ℕ)
    (recounts : List (ι → ℕ)) (T : List (ι × List (ι × ℚ))) : List (ι × List (ι × ℚ)) :=
  recounts.foldl (fun Tacc rc => (ballot_polling_SPRT vote_count rc risk_limit Sw Sl Tacc).1) T

/-- The per-pair term x/y of utils.MICRO.  pw and pl are (id, column) items of
the winner and loser divisor dicts W and L; the numerator uses the table-scoped
reported and recounted totals (utils.e), the denominator the contest-scoped
reported totals. -/
def microTerm (reported table_report recount : ι → ℕ) (pw pl : ι × ℕ) : ℚ :=
  let x : ℚ := (d pl.2 : ℚ) * ((table_report pw.1 : ℚ) - (recount pw.1 : ℚ)) -
    (d pw.2 : ℚ) * ((table_report pl.1 : ℚ) - (recount pl.1 : ℚ))
  let y : ℚ := (d pl.2 : ℚ) * (reported pw.1 : ℚ) - (d pw.2 : ℚ) * (reported pl.1 : ℚ)
  x / y

/-- utils.MICRO: maximum in-contest relative overstatement for a table.
Starts at 0 and folds max over the per-pair terms, skipping pairs whose ids
coincide, iterating winners in the outer loop and losers in the inner loop. -/
def MICRO (reported table_report recount : ι → ℕ) (W L : List (ι × ℕ)) : ℚ :=
  W.foldl (fun micro pw =>
    L.foldl (fun m pl =>
      if pw.1 = pl.1 then m else max m (microTerm reported table_report recount pw pl)) micro) 0

/-- Modelled from the spec wording of tableMicro: the flat list of per-pair
terms x/y over ordered pairs (winner, loser) with distinct ids. -/
def microPairTerms (reported table_report recount : ι → ℕ) (W L : List (ι × ℕ)) : List ℚ :=
  W.flatMap fun pw =>
    (L.filter fun pl => pw.1 ≠ pl.1).map fun pl => microTerm reported table_report recount pw pl

/-- Modelled from the spec wording of tableMicro: return max(0, max over pairs
of x/y) (the fold below realises the maximum of the pair terms together
with 0). -/
def MICRO_spec (reported table_report recount : ι → ℕ) (W L : List (ι × ℕ)) : ℚ :=
  max 0 ((microPairTerms reported table_report recount W L).foldr max 0)

/-- The per-pair denominator of utils.MICRO_upper_bound:
d(Sl[l]) * reported[w] - d(Sw[w]) * reported[l]. -/
def muDenom (reported : ι → ℕ) (Sw Sl : ι → ℕ) (w l : ι) : ℚ :=
  (d (Sl l) : ℚ) * (reported w : ℚ) - (d (Sw w) : ℚ) * (reported l : ℚ)

/-- Inner loop of utils.MICRO_upper_bound over the losers, for a fixed winner.
A zero denominator is Python's ZeroDivisionError, modelled as none. -/
def muInner (reported : ι → ℕ) (Sw Sl : ι → ℕ) (w : ι) : List ι → ℚ → Option ℚ
  | [], u => some u
  | l :: ls, u =>
    if w = l then muInner reported Sw Sl w ls u
    else if muDenom reported Sw Sl w l = 0 then none
    else muInner reported Sw Sl w ls
      (max u (((d (Sl l) : ℚ) + (d (Sw w) : ℚ)) / muDenom reported Sw Sl w l))

/-- Outer loop of utils.MICRO_upper_bound over the winners. -/
def muOuter (reported : ι → ℕ) (Sw Sl : ι → ℕ) (Lp : List ι) : List ι → ℚ → Option ℚ
  | [], u => some u
  | w :: ws, u => (muInner reported Sw Sl w Lp u).bind (muOuter reported Sw Sl Lp ws)

/-- utils.MICRO_upper_bound: worst per-pair bound over winners Wp and losers
Lp, starting from u = 0; none models the arithmetic fault raised on a zero
denominator. -/
def MICRO_upper_bound (reported : ι → ℕ) (Wp Lp : List ι) (Sw Sl : ι → ℕ) : Option ℚ :=
  muOuter reported Sw Sl Lp Wp 0

/-- audits.DHondt.__init__: pseudo-candidate dict, in insertion order.  Keys
are (party, seat-index) for each party with a truthy (non-empty) name, with
seat indices below min(n_winners, number of party members); the value is the
party's votes divided by the column divisor (utils.p). -/
def pseudo_vote_count (parties : List String) (vote_count : String → ℕ)
    (members : String → ℕ) (n_winners : ℕ) : List ((String × ℕ) × ℚ) :=
  (parties.filter fun p => p ≠ "").flatMap fun p =>
    (List.range (min n_winners (members p))).map fun i =>
      ((p, i), (vote_count p : ℚ) / (d i : ℚ))

/-- Largest seat index held by a party in the winner set W
(max i for (p, i) in W with p == party). -/
def maxSeatIdx (W : List (String × ℕ)) (party : String) : ℕ :=
  ((W.filter fun x => x.1 = party).map Prod.snd).foldr max 0

/-- audits.DHondt.__init__ seat-award loop: for each party appearing in W,
its seat count is 1 plus the largest seat index it holds; this sums those
counts over the parties (the loop extends winning_candidates by that many). -/
def awarded_seats (parties : List String) (W : List (String × ℕ)) : ℕ :=
  ((parties.filter fun party => W.any fun x => x.1 = party).map
    fun party => maxSeatIdx W party + 1).sum

/-- A row of the preliminary table as the DHondt constructor reads it
(the table column plays no role in the claims modelled here). -/
structure Row where
  candidate : String
  party : Option String
  votes : ℕ

/-- pandas fillna on the party column: a missing party becomes the empty
string. -/
def fillParty (r : Row) : String := r.party.getD ""

/-- audits.DHondt.__init__: vote count grouped by (filled) party. -/
def partyVoteCount (rows : List Row) (p : String) : ℕ :=
  ((rows.filter fun r => fillParty r = p).map Row.votes).sum

/-- The distinct (filled) parties of the preliminary table, one entry each. -/
def partiesOf (rows : List Row) : List String :=
  (rows.map fillParty).dedup

/-- audits.DHondt.__init__: number of distinct candidates recorded for a
party (the length of members_per_party[party]). -/
def membersCount (rows : List Row) (p : String) : ℕ :=
  ((rows.filter fun r => fillParty r = p).map Row.candidate).dedup.length

/-- Descending comparison of ids by a value function: the relation used by
sorted(candidates, key=lambda c: self.vote_count[c], reverse=True) in
audits.SuperMajority._vote_count_transform. -/
def descVal (val : ι → ℕ) : ι → ι → Prop := fun a b => val b ≤ val a

instance (val : ι → ℕ) : DecidableRel (descVal val) :=
  fun a b => inferInstanceAs (Decidable (val b ≤ val a))

instance (val : ι → ℕ) : IsTotal ι (descVal val) := ⟨fun a b => le_total (val b) (val a)⟩

instance (val : ι → ℕ) : IsTrans ι (descVal val) := ⟨fun _ _ _ h1 h2 => le_trans h2 h1⟩

/-- Value of a candidate in the audit's own (preliminary) vote count
(self.vote_count[c], modelled with default 0 on a missing key). -/
def lookupVal (prelim : List (ι × ℕ)) (c : ι) : ℕ := (lookupA prelim c).getD 0

/-- The candidate partition SuperMajority uses: candidates of the
preliminary vote count ranked by their preliminary votes (stable,
descending), split after n_winners. -/
def smPartition (prelim : List (ι × ℕ)) (n_winners : ℕ) : List ι × List ι :=
  let sortedC := List.insertionSort (descVal (lookupVal prelim)) (prelim.map Prod.fst)
  (sortedC.take n_winners, sortedC.drop n_winners)

/-- audits.SuperMajority._vote_count_transform: collapse a mapping m into the
two buckets w and l, where the ranking of candidates is taken from the
audit's own preliminary vote count and the summed values from m. -/
def sm_vote_count_transform (prelim : List (ι × ℕ)) (n_winners : ℕ) (m : ι → ℕ) : ℕ × ℕ :=
  let sortedC := List.insertionSort (descVal (lookupVal prelim)) (prelim.map Prod.fst)
  (((sortedC.take n_winners).map m).sum, ((sortedC.drop n_winners).map m).sum)

/-- audits.SuperMajority._vote_recount_transform: delegates to
_vote_count_transform. -/
def sm_vote_recount_transform (prelim : List (ι × ℕ)) (n_winners : ℕ) (m : ι → ℕ) : ℕ × ℕ :=
  sm_vote_count_transform prelim n_winners m

/-- Modelled from the spec wording of the SuperMajority collapse: the
two-bucket view with the ranking recomputed fresh from the mapping that is
passed in (rather than from the preliminary count). -/
def sm_transform_freshRanking (prelim : List (ι × ℕ)) (n_winners : ℕ) (m : ι → ℕ) : ℕ × ℕ :=
  let sortedC := List.insertionSort (descVal m) (prelim.map Prod.fst)
  (((sortedC.take n_winners).map m).sum, ((sortedC.drop n_winners).map m).sum)

theorem lookupA_map {β γ : Type} (L : List (ι × β)) (f : ι → β → γ) (k : ι) :
    lookupA (L.map fun x => (x.1, f x.1 x.2)) k = (lookupA L k).map (f k) := by
  induction L with
  | nil => rfl
  | cons a rest ih =>
    obtain ⟨ak, av⟩ := a
    by_cases h : k = ak
    · subst h
      simp [lookupA]
    · simp [lookupA, h, ih]

theorem lookupA_mem {β : Type} {L : List (ι × β)} {k : ι} {v : β}
    (h : lookupA L k = some v) : (k, v) ∈ L := by
  induction L with
  | nil => simp [lookupA] at h
  | cons a rest ih =>
    obtain ⟨ak, av⟩ := a
    by_cases hk : k = ak
    · subst hk
      simp only [lookupA, if_true, eq_self_iff_true, Option.some_inj] at h
      subst h
      exact List.mem_cons_self ..
    · simp only [lookupA, if_neg hk] at h
      exact List.mem_cons_of_mem _ (ih h)

/-- Each entry of the matrix returned by ballot_polling_SPRT is the
updateEntry image of the corresponding entry of the input matrix. -/
theorem Tget_ballot_polling_SPRT (vote_count recount : ι → ℕ) (risk_limit : ℚ)
    (Sw Sl : ι → ℕ) (T : List (ι × List (ι × ℚ))) (w l : ι) :
    Tget (ballot_polling_SPRT vote_count recount risk_limit Sw Sl T).1 w l =
      (Tget T w l).map (updateEntry vote_count recount risk_limit Sw Sl w l) := by
  unfold ballot_polling_SPRT Tget
  dsimp only
  rw [lookupA_map T
    (fun a row => row.map fun lt => (lt.1, updateEntry vote_count recount risk_limit Sw Sl a lt.1 lt.2)) w]
  cases h : lookupA T w with
  | none => rfl
  | some row =>
    exact lookupA_map row (fun b tv => updateEntry vote_count recount risk_limit Sw Sl w b tv) l

/-- gamma p q is strictly positive as soon as p has at least one reported
vote. -/
theorem gamma_pos (p q : ι) (vote_count : ι → ℕ) (Sw Sl : ι → ℕ)
    (hp : 0 < vote_count p) : 0 < gamma p q vote_count Sw Sl := by
  unfold gamma
  have h1 : (0 : ℚ) < (vote_count p : ℚ) := by exact_mod_cast hp
  have h2 : (0 : ℚ) ≤ (vote_count q : ℚ) := by positivity
  have h3 : (0 : ℚ) < (d (Sw p) : ℚ) := by
    unfold d
    positivity
  have h4 : (0 : ℚ) < (d (Sl q) : ℚ) := by
    unfold d
    positivity
  exact mul_pos (div_pos h1 (by linarith)) (div_pos (by linarith) h3)

/-- updateEntry maps a strictly positive entry to a strictly positive entry
when both candidates have strictly positive reported votes. -/
theorem updateEntry_pos (vote_count recount : ι → ℕ) (risk_limit : ℚ) (Sw Sl : ι → ℕ)
    (w l : ι) (tv : ℚ) (hw : 0 < vote_count w) (hl : 0 < vote_count l) (htv : 0 < tv) :
    0 < updateEntry vote_count recount risk_limit Sw Sl w l tv := by
  unfold updateEntry
  split
  · exact mul_pos (mul_pos htv (pow_pos (gamma_pos w l vote_count Sw Sl hw) _))
      (pow_pos (gamma_pos l w vote_count Sl Sw hl) _)
  · exact htv

/-- Invariant on the matrix: every winner and loser key has strictly
positive reported votes, and every entry is strictly positive. -/
def TPos (vote_count : ι → ℕ) (T : List (ι × List (ι × ℚ))) : Prop :=
  ∀ wr ∈ T, 0 < vote_count wr.1 ∧ ∀ lt ∈ wr.2, 0 < vote_count lt.1 ∧ 0 < lt.2

theorem TPos_ballot_polling_SPRT (vote_count recount : ι → ℕ) (risk_limit : ℚ)
    (Sw Sl : ι → ℕ) (T : List (ι × List (ι × ℚ))) (h : TPos vote_count T) :
    TPos vote_count (ballot_polling_SPRT vote_count recount risk_limit Sw Sl T).1 := by
  intro wr hwr
  unfold ballot_polling_SPRT at hwr
  dsimp only at hwr
  obtain ⟨wr0, hwr0, rfl⟩ := List.mem_map.mp hwr
  obtain ⟨hw0, hrow⟩ := h wr0 hwr0
  refine ⟨hw0, ?_⟩
  intro lt hlt
  obtain ⟨lt0, hlt0, rfl⟩ := List.mem_map.mp hlt
  obtain ⟨hl0, htv0⟩ := hrow lt0 hlt0
  exact ⟨hl0, updateEntry_pos vote_count recount risk_limit Sw Sl wr0.1 lt0.1 lt0.2 hw0 hl0 htv0⟩

theorem TPos_sprtIter (vote_count : ι → ℕ) (risk_limit : ℚ) (Sw Sl : ι → ℕ)
    (recounts : List (ι → ℕ)) (T : List (ι × List (ι × ℚ))) (h : TPos vote_count T) :
    TPos vote_count (sprtIter vote_count risk_limit Sw Sl recounts T) := by
  induction recounts generalizing T with
  | nil => exact h
  | cons rc rcs ih =>
    exact ih _ (TPos_ballot_polling_SPRT vote_count rc risk_limit Sw Sl T h)

/-- C2: an entry of T that has already reached 1/risk_limit is returned
unchanged by ballot_polling_SPRT, whatever the recount is. -/
theorem C2_frozen_entry_unchanged (vote_count recount : ι → ℕ) (risk_limit : ℚ)
    (Sw Sl : ι → ℕ) (T : List (ι × List (ι × ℚ))) (w l : ι) (tv : ℚ)
    (hget : Tget T w l = some tv) (hth : 1 / risk_limit ≤ tv) :
    Tget (ballot_polling_SPRT vote_count recount risk_limit Sw Sl T).1 w l = some tv := by
  rw [Tget_ballot_polling_SPRT, hget]
  have h1 : updateEntry vote_count recount risk_limit Sw Sl w l tv = tv := by
    unfold updateEntry
    rw [if_neg (not_lt.mpr hth)]
  simp [h1]

/-- Witness for C2: a concrete entry at 20 with risk limit 1/10 (threshold
10) stays exactly 20 across a call with a nonzero recount. -/
theorem C2_frozen_entry_unchanged_witness :
    Tget (ballot_polling_SPRT (fun i : ℕ => if i = 0 then 3 else 1)
      (fun i : ℕ => if i = 0 then 4 else 7) (1/10) (fun _ => 0) (fun _ => 0)
      [(0, [(1, (20 : ℚ))])]).1 0 1 = some 20 :=
  C2_frozen_entry_unchanged (fun i : ℕ => if i = 0 then 3 else 1)
    (fun i : ℕ => if i = 0 then 4 else 7) (1/10) (fun _ => 0) (fun _ => 0)
    [(0, [(1, (20 : ℚ))])] 0 1 20 (by norm_num [Tget, lookupA]) (by norm_num)

/-- C1 counterexample: with preliminary votes w=3, l=1 and a recount of a
single ballot for the loser, the entry T[w][l] drops from 1 to 1/2, so the
update is not monotonic non-decreasing below the threshold. -/
theorem C1_counterexample_entry_decreases :
    Tget (ballot_polling_SPRT (fun i : ℕ => if i = 0 then 3 else 1)
      (fun i : ℕ => if i = 0 then 0 else 1) (1/10) (fun _ => 0) (fun _ => 0)
      [(0, [(1, (1 : ℚ))])]).1 0 1 = some (1/2) ∧ ¬ ((1 : ℚ) ≤ 1/2) := by
  constructor
  · norm_num [Tget, ballot_polling_SPRT, updateEntry, gamma, lookupA, d]
  · norm_num

/-- C1 amended: below the threshold, ballot_polling_SPRT multiplies the
entry T[w][l] by gamma(w,l)^recount[w] * gamma(l,w)^recount[l]; this factor
can be smaller than 1, so the entry need not increase. -/
theorem C1_amended_multiplicative_update (vote_count recount : ι → ℕ) (risk_limit : ℚ)
    (Sw Sl : ι → ℕ) (T : List (ι × List (ι × ℚ))) (w l : ι) (tv : ℚ)
    (hget : Tget T w l = some tv) (hlt : tv < 1 / risk_limit) :
    Tget (ballot_polling_SPRT vote_count recount risk_limit Sw Sl T).1 w l =
      some (tv * gamma w l vote_count Sw Sl ^ recount w *
        gamma l w vote_count Sl Sw ^ recount l) := by
  rw [Tget_ballot_polling_SPRT, hget]
  have h1 : updateEntry vote_count recount risk_limit Sw Sl w l tv =
      tv * gamma w l vote_count Sw Sl ^ recount w * gamma l w vote_count Sl Sw ^ recount l := by
    unfold updateEntry
    rw [if_pos hlt]
  simp [h1]

/-- Witness for C1 amended, at the counterexample input. -/
theorem C1_amended_multiplicative_update_witness :
    Tget (ballot_polling_SPRT (fun i : ℕ => if i = 0 then 3 else 1)
      (fun i : ℕ => if i = 0 then 0 else 1) (1/10) (fun _ => 0) (fun _ => 0)
      [(0, [(1, (1 : ℚ))])]).1 0 1 =
      some (1 * gamma 0 1 (fun i : ℕ => if i = 0 then 3 else 1) (fun _ => 0) (fun _ => 0) ^ 0 *
        gamma 1 0 (fun i : ℕ => if i = 0 then 3 else 1) (fun _ => 0) (fun _ => 0) ^ 1) :=
  C1_amended_multiplicative_update (fun i : ℕ => if i = 0 then 3 else 1)
    (fun i : ℕ => if i = 0 then 0 else 1) (1/10) (fun _ => 0) (fun _ => 0)
    [(0, [(1, (1 : ℚ))])] 0 1 1 (by norm_num [Tget, lookupA]) (by norm_num)

/-- C3 counterexample: preliminary votes w=2, l=1 and a recount identical to
the preliminary count turn the entry T[w][l] from 1 into 32/27, not 1. -/
theorem C3_counterexample_identical_recount :
    Tget (ballot_polling_SPRT (fun i : ℕ => if i = 0 then 2 else 1)
      (fun i : ℕ => if i = 0 then 2 else 1) (1/10) (fun _ => 0) (fun _ => 0)
      [(0, [(1, (1 : ℚ))])]).1 0 1 = some (32/27) ∧ ((32 : ℚ)/27) ≠ 1 := by
  constructor
  · norm_num [Tget, ballot_polling_SPRT, updateEntry, gamma, lookupA, d]
  · norm_num

/-- C3 amended: with a recount identical to the preliminary count, a single
call turns an entry initialized to 1 into
gamma(w,l)^vote_count[w] * gamma(l,w)^vote_count[l], which is 1 only in
degenerate cases (it exceeds 1 whenever the pair's likelihood ratios favour
the winner). -/
theorem C3_amended_identical_recount_value (vote_count : ι → ℕ) (risk_limit : ℚ)
    (Sw Sl : ι → ℕ) (T : List (ι × List (ι × ℚ))) (w l : ι)
    (hget : Tget T w l = some 1) (hα : 1 < 1 / risk_limit) :
    Tget (ballot_polling_SPRT vote_count vote_count risk_limit Sw Sl T).1 w l =
      some (gamma w l vote_count Sw Sl ^ vote_count w *
        gamma l w vote_count Sl Sw ^ vote_count l) := by
  rw [Tget_ballot_polling_SPRT, hget]
  have h1 : updateEntry vote_count vote_count risk_limit Sw Sl w l 1 =
      gamma w l vote_count Sw Sl ^ vote_count w * gamma l w vote_count Sl Sw ^ vote_count l := by
    unfold updateEntry
    rw [if_pos hα, one_mul]
  simp [h1]

/-- Witness for C3 amended, at the counterexample input. -/
theorem C3_amended_identical_recount_value_witness :
    Tget (ballot_polling_SPRT (fun i : ℕ => if i = 0 then 2 else 1)
      (fun i : ℕ => if i = 0 then 2 else 1) (1/10) (fun _ => 0) (fun _ => 0)
      [(0, [(1, (1 : ℚ))])]).1 0 1 =
      some (gamma 0 1 (fun i : ℕ => if i = 0 then 2 else 1) (fun _ => 0) (fun _ => 0) ^ 2 *
        gamma 1 0 (fun i : ℕ => if i = 0 then 2 else 1) (fun _ => 0) (fun _ => 0) ^ 1) :=
  C3_amended_identical_recount_value (fun i : ℕ => if i = 0 then 2 else 1) (1/10)
    (fun _ => 0) (fun _ => 0) [(0, [(1, (1 : ℚ))])] 0 1
    (by norm_num [Tget, lookupA]) (by norm_num)

/-- C9 counterexample: a loser with zero preliminary votes and one recounted
ballot drives the entry T[w][l] to exactly 0, which is not strictly
positive (the subsequent 1/T in the source raises a division error). -/
theorem C9_counterexample_zero_entry :
    Tget (ballot_polling_SPRT (fun i : ℕ => if i = 0 then 1 else 0)
      (fun i : ℕ => if i = 0 then 0 else 1) (1/10) (fun _ => 0) (fun _ => 0)
      [(0, [(1, (1 : ℚ))])]).1 0 1 = some 0 ∧ ¬ ((0 : ℚ) < 0) := by
  constructor
  · norm_num [Tget, ballot_polling_SPRT, updateEntry, gamma, lookupA, d]
  · norm_num

/-- C9 amended: when every winner and loser key of T has strictly positive
preliminary votes and every entry starts strictly positive, every entry is
still strictly positive after any sequence of ballot_polling_SPRT calls. -/
theorem C9_amended_entries_positive (vote_count : ι → ℕ) (risk_limit : ℚ)
    (Sw Sl : ι → ℕ) (recounts : List (ι → ℕ)) (T : List (ι × List (ι × ℚ)))
    (hpos : TPos vote_count T) (w l : ι) (tv : ℚ)
    (hget : Tget (sprtIter vote_count risk_limit Sw Sl recounts T) w l = some tv) :
    0 < tv := by
  have hfin := TPos_sprtIter vote_count risk_limit Sw Sl recounts T hpos
  unfold Tget at hget
  cases hrow : lookupA (sprtIter vote_count risk_limit Sw Sl recounts T) w with
  | none => rw [hrow] at hget; simp at hget
  | some row =>
    rw [hrow] at hget
    simp only [Option.some_bind] at hget
    have hmem := lookupA_mem hrow
    have hmem2 := lookupA_mem hget
    exact ((hfin _ hmem).2 _ hmem2).2

/-- Witness for C9 amended: two successive identical recounts on a 2:1
contest leave the entry at 1024/729 which is strictly positive. -/
theorem C9_amended_entries_positive_witness : (0 : ℚ) < 1024/729 :=
  C9_amended_entries_positive (fun i : ℕ => if i = 0 then 2 else 1) (1/10)
    (fun _ => 0) (fun _ => 0)
    [fun i : ℕ => if i = 0 then 2 else 1, fun i : ℕ => if i = 0 then 2 else 1]
    [(0, [(1, (1 : ℚ))])]
    (by
      intro wr hwr
      simp only [List.mem_singleton] at hwr
      subst hwr
      refine ⟨by norm_num, ?_⟩
      intro lt hlt
      simp only [List.mem_singleton] at hlt
      subst hlt
      norm_num)
    0 1 (1024/729)
    (by norm_num [sprtIter, Tget, ballot_polling_SPRT, updateEntry, gamma, lookupA, d])

theorem foldr_max_nonneg (l : List ℚ) : 0 ≤ l.foldr max 0 := by
  induction l with
  | nil => exact le_refl 0
  | cons x xs ih => exact le_trans ih (le_max_right x _)

theorem foldl_max_eq_foldr (l : List ℚ) (a : ℚ) (ha : 0 ≤ a) :
    l.foldl max a = max a (l.foldr max 0) := by
  induction l generalizing a with
  | nil => simp [max_eq_left ha]
  | cons x xs ih =>
    simp only [List.foldl_cons, List.foldr_cons]
    rw [ih (max a x) (le_trans ha (le_max_left a x)), max_assoc]

theorem foldr_max_append (l1 l2 : List ℚ) :
    (l1 ++ l2).foldr max 0 = max (l1.foldr max 0) (l2.foldr max 0) := by
  induction l1 with
  | nil => simp [max_eq_right (foldr_max_nonneg l2)]
  | cons x xs ih => simp only [List.cons_append, List.foldr_cons, ih, max_assoc]

theorem foldr_max_flatMap {α : Type} (W : List α) (f : α → List ℚ) :
    (W.flatMap f).foldr max 0 = (W.map fun x => (f x).foldr max 0).foldr max 0 := by
  induction W with
  | nil => rfl
  | cons x xs ih => simp only [List.flatMap_cons, List.map_cons, List.foldr_cons,
      foldr_max_append, ih]

theorem micro_inner_eq (reported table_report recount : ι → ℕ) (pw : ι × ℕ)
    (L : List (ι × ℕ)) (a : ℚ) :
    L.foldl (fun m pl =>
        if pw.1 = pl.1 then m else max m (microTerm reported table_report recount pw pl)) a =
      ((L.filter fun pl => pw.1 ≠ pl.1).map
        (microTerm reported table_report recount pw)).foldl max a := by
  induction L generalizing a with
  | nil => rfl
  | cons pl L ih =>
    by_cases h : pw.1 = pl.1
    · have hd : decide (pw.1 ≠ pl.1) = false := by simp [h]
      simp only [List.foldl_cons, if_pos h, List.filter_cons, hd]
      simpa using ih a
    · have hd : decide (pw.1 ≠ pl.1) = true := by simp [h]
      simp only [List.foldl_cons, if_neg h, List.filter_cons, hd]
      simpa using ih (max a (microTerm reported table_report recount pw pl))

/-- C5: utils.MICRO returns max(0, max over ordered pairs of distinct ids of
x/y), with the error terms taken from the table-scoped totals and the
denominator from the contest-scoped totals; the hypothesis restricts to
inputs where no pair divides by zero (where the source would raise). -/
theorem C5_MICRO_eq_spec (reported table_report recount : ι → ℕ) (W L : List (ι × ℕ))
    (_hy : ∀ pw ∈ W, ∀ pl ∈ L, pw.1 ≠ pl.1 →
      (d pl.2 : ℚ) * (reported pw.1 : ℚ) - (d pw.2 : ℚ) * (reported pl.1 : ℚ) ≠ 0) :
    MICRO reported table_report recount W L =
      MICRO_spec reported table_report recount W L := by
  unfold MICRO MICRO_spec microPairTerms
  rw [foldr_max_flatMap]
  have key : ∀ (Ws : List (ι × ℕ)) (a : ℚ), 0 ≤ a →
      Ws.foldl (fun micro pw => L.foldl (fun m pl =>
        if pw.1 = pl.1 then m
        else max m (microTerm reported table_report recount pw pl)) micro) a =
      max a ((Ws.map fun pw => (((L.filter fun pl => pw.1 ≠ pl.1).map
        (microTerm reported table_report recount pw)).foldr max 0)).foldr max 0) := by
    intro Ws
    induction Ws with
    | nil => intro a ha; simp [max_eq_left ha]
    | cons pw Ws ih =>
      intro a ha
      simp only [List.foldl_cons, List.map_cons, List.foldr_cons]
      rw [micro_inner_eq, foldl_max_eq_foldr _ a ha,
        ih _ (le_trans ha (le_max_left _ _)), max_assoc]
  exact key W 0 (le_refl 0)

/-- Witness for C5: a concrete two-candidate table with nonzero margins. -/
theorem C5_MICRO_eq_spec_witness :
    MICRO (fun i : ℕ => if i = 0 then 2 else 1) (fun i : ℕ => if i = 0 then 2 else 1)
      (fun i : ℕ => if i = 0 then 1 else 2) [(0, 0)] [(1, 0)] =
    MICRO_spec (fun i : ℕ => if i = 0 then 2 else 1) (fun i : ℕ => if i = 0 then 2 else 1)
      (fun i : ℕ => if i = 0 then 1 else 2) [(0, 0)] [(1, 0)] :=
  C5_MICRO_eq_spec (fun i : ℕ => if i = 0 then 2 else 1)
    (fun i : ℕ => if i = 0 then 2 else 1) (fun i : ℕ => if i = 0 then 1 else 2)
    [(0, 0)] [(1, 0)]
    (by
      intro pw hw pl hl hne
      simp only [List.mem_singleton] at hw hl
      subst hw
      subst hl
      norm_num [d])

theorem muInner_none_iff (reported : ι → ℕ) (Sw Sl : ι → ℕ) (w : ι) (ls : List ι) :
    ∀ u, muInner reported Sw Sl w ls u = none ↔
      ∃ l ∈ ls, w ≠ l ∧ muDenom reported Sw Sl w l = 0 := by
  induction ls with
  | nil => intro u; simp [muInner]
  | cons l ls ih =>
    intro u
    by_cases h : w = l
    · simp only [muInner, if_pos h, ih u]
      subst h
      simp
    · by_cases hd : muDenom reported Sw Sl w l = 0
      · simp only [muInner, if_neg h, if_pos hd]
        exact iff_of_true trivial ⟨l, List.mem_cons_self .., h, hd⟩
      · simp only [muInner, if_neg h, if_neg hd, ih]
        constructor
        · rintro ⟨l2, hl2, hne, hdz⟩
          exact ⟨l2, List.mem_cons_of_mem _ hl2, hne, hdz⟩
        · rintro ⟨l2, hl2, hne, hdz⟩
          rcases List.mem_cons.mp hl2 with rfl | hl2
          · exact absurd hdz hd
          · exact ⟨l2, hl2, hne, hdz⟩

theorem muInner_le (reported : ι → ℕ) (Sw Sl : ι → ℕ) (w : ι) (ls : List ι) :
    ∀ u u2, muInner reported Sw Sl w ls u = some u2 → u ≤ u2 := by
  induction ls with
  | nil =>
    intro u u2 h
    simp only [muInner, Option.some_inj] at h
    exact le_of_eq h
  | cons l ls ih =>
    intro u u2 h
    by_cases hw : w = l
    · rw [muInner, if_pos hw] at h
      exact ih u u2 h
    · by_cases hd : muDenom reported Sw Sl w l = 0
      · rw [muInner, if_neg hw, if_pos hd] at h
        exact absurd h (by simp)
      · rw [muInner, if_neg hw, if_neg hd] at h
        exact le_trans (le_max_left _ _) (ih _ u2 h)

theorem muOuter_none_iff (reported : ι → ℕ) (Sw Sl : ι → ℕ) (Lp : List ι) (ws : List ι) :
    ∀ u, muOuter reported Sw Sl Lp ws u = none ↔
      ∃ w ∈ ws, ∃ l ∈ Lp, w ≠ l ∧ muDenom reported Sw Sl w l = 0 := by
  induction ws with
  | nil => intro u; simp [muOuter]
  | cons w ws ih =>
    intro u
    cases h : muInner reported Sw Sl w Lp u with
    | none =>
      refine iff_of_true (by simp [muOuter, h]) ?_
      obtain ⟨l, hl, hne, hdz⟩ := (muInner_none_iff reported Sw Sl w Lp u).mp h
      exact ⟨w, List.mem_cons_self .., l, hl, hne, hdz⟩
    | some u1 =>
      have hhead : ¬ ∃ l ∈ Lp, w ≠ l ∧ muDenom reported Sw Sl w l = 0 := by
        rw [← muInner_none_iff reported Sw Sl w Lp u, h]
        simp
      simp only [muOuter, h, Option.some_bind, ih u1]
      constructor
      · rintro ⟨w2, hw2, rest⟩
        exact ⟨w2, List.mem_cons_of_mem _ hw2, rest⟩
      · rintro ⟨w2, hw2, rest⟩
        rcases List.mem_cons.mp hw2 with rfl | hw2
        · exact absurd rest hhead
        · exact ⟨w2, hw2, rest⟩

theorem muOuter_le (reported : ι → ℕ) (Sw Sl : ι → ℕ) (Lp : List ι) (ws : List ι) :
    ∀ u u2, muOuter reported Sw Sl Lp ws u = some u2 → u ≤ u2 := by
  induction ws with
  | nil =>
    intro u u2 h
    simp only [muOuter, Option.some_inj] at h
    exact le_of_eq h
  | cons w ws ih =>
    intro u u2 h
    cases h1 : muInner reported Sw Sl w Lp u with
    | none => rw [muOuter, h1] at h; exact absurd h (by simp)
    | some u1 =>
      rw [muOuter, h1, Option.some_bind] at h
      exact le_trans (muInner_le reported Sw Sl w Lp u u1 h1) (ih u1 u2 h)

/-- C6 counterexample: with reported votes winner=1, loser=10 the pair
denominator is negative, yet MICRO_upper_bound returns a value (the
negative per-pair term is discarded by the running max) instead of failing. -/
theorem C6_counterexample_negative_denominator_returns :
    (MICRO_upper_bound (fun i : ℕ => if i = 0 then 1 else 10) [0] [1]
      (fun _ => 0) (fun _ => 0)).isSome = true ∧
    muDenom (fun i : ℕ => if i = 0 then 1 else 10) (fun _ => 0) (fun _ => 0) 0 1 < 0 := by
  constructor
  · norm_num [MICRO_upper_bound, muOuter, muInner, muDenom, d]
  · norm_num [muDenom, d]

/-- C6 amended: MICRO_upper_bound raises (returns none, modelling the
ZeroDivisionError) exactly when some winner/loser pair with distinct ids has
a zero denominator; a strictly negative denominator does not make it fail,
but the returned bound is never negative (the negative per-pair term is
absorbed by the max with the running bound started at 0). -/
theorem C6_amended_raise_iff_zero_denominator (reported : ι → ℕ) (Wp Lp : List ι)
    (Sw Sl : ι → ℕ) :
    (MICRO_upper_bound reported Wp Lp Sw Sl = none ↔
      ∃ w ∈ Wp, ∃ l ∈ Lp, w ≠ l ∧ muDenom reported Sw Sl w l = 0) ∧
    ∀ u, MICRO_upper_bound reported Wp Lp Sw Sl = some u → 0 ≤ u := by
  constructor
  · exact muOuter_none_iff reported Sw Sl Lp Wp 0
  · intro u h
    exact muOuter_le reported Sw Sl Lp Wp 0 u h

/-- Witness for C6 amended: all-equal reported votes give a zero denominator
for the pair (0, 1), so the bound computation raises. -/
theorem C6_amended_raise_iff_zero_denominator_witness :
    MICRO_upper_bound (fun _ : ℕ => 1) [0] [1] (fun _ => 0) (fun _ => 0) = none :=
  (C6_amended_raise_iff_zero_denominator (fun _ : ℕ => 1) [0] [1]
    (fun _ => 0) (fun _ => 0)).1.mpr
    ⟨0, by simp, 1, by simp, by norm_num, by norm_num [muDenom, d]⟩

/-- C8 counterexample: with preliminary votes A=3, B=1 and a passed-in
mapping A=1, B=5, the source transform ranks by the preliminary count and
returns buckets (1, 5), while the transform that recomputes the ranking
fresh from the passed-in mapping would return (5, 1). -/
theorem C8_counterexample_ranking_not_recomputed :
    sm_vote_count_transform [((0 : ℕ), 3), (1, 1)] 1 (fun c => if c = 0 then 1 else 5) = (1, 5) ∧
    sm_transform_freshRanking [((0 : ℕ), 3), (1, 1)] 1 (fun c => if c = 0 then 1 else 5) = (5, 1) ∧
    ((1, 5) : ℕ × ℕ) ≠ (5, 1) := by
  refine ⟨by decide, by decide, by decide⟩

/-- C8 amended: SuperMajority forces n_winners = 1; the collapsing transform
factors through a candidate partition computed once from the preliminary
vote count (not from the mapping passed in), sums the passed-in mapping
over the two parts, applies identically to vote counts and recounts, and
the two buckets add up to the total of the passed-in mapping over all
candidates. -/
theorem C8_amended_collapse (prelim : List (ι × ℕ)) (m : ι → ℕ) :
    sm_vote_recount_transform prelim 1 m = sm_vote_count_transform prelim 1 m ∧
    sm_vote_count_transform prelim 1 m =
      (((smPartition prelim 1).1.map m).sum, ((smPartition prelim 1).2.map m).sum) ∧
    (sm_vote_count_transform prelim 1 m).1 + (sm_vote_count_transform prelim 1 m).2 =
      ((prelim.map Prod.fst).map m).sum := by
  refine ⟨rfl, rfl, ?_⟩
  unfold sm_vote_count_transform
  dsimp only
  rw [← List.sum_append, ← List.map_append, List.take_append_drop]
  exact ((List.perm_insertionSort (descVal (lookupVal prelim))
    (prelim.map Prod.fst)).map m).sum_eq

theorem lookupA_eq_of_mem {β : Type} {L : List (ι × β)} {k : ι} {v : β}
    (hnd : (L.map Prod.fst).Nodup) (hm : (k, v) ∈ L) : lookupA L k = some v := by
  induction L with
  | nil => simp at hm
  | cons a rest ih =>
    obtain ⟨ak, av⟩ := a
    simp only [List.map_cons, List.nodup_cons] at hnd
    rcases List.mem_cons.mp hm with heq | hm2
    · obtain ⟨rfl, rfl⟩ := Prod.mk.injEq .. |>.mp heq
      simp [lookupA]
    · have hk : k ≠ ak := by
        rintro rfl
        exact hnd.1 (List.mem_map.mpr ⟨(k, v), hm2, rfl⟩)
      simp only [lookupA, if_neg hk]
      exact ih hnd.2 hm2

/-- C7: get_W_L_sets returns W and L disjoint, jointly a permutation of the
input's ids, with exactly n_winners winners, and every winner's vote count
at least every loser's vote count. -/
theorem C7_get_W_L_sets_partition {β : Type} [LinearOrder β] (vote_count : List (ι × β))
    (n_winners : ℕ) (W L : List ι)
    (hnd : (vote_count.map Prod.fst).Nodup) (_hn1 : 1 ≤ n_winners)
    (hn2 : n_winners ≤ vote_count.length)
    (hWL : get_W_L_sets vote_count n_winners = (W, L)) :
    W.Disjoint L ∧ (W ++ L).Perm (vote_count.map Prod.fst) ∧ W.length = n_winners ∧
    ∀ w ∈ W, ∀ l ∈ L, ∀ vw vl, lookupA vote_count w = some vw →
      lookupA vote_count l = some vl → vl ≤ vw := by
  unfold get_W_L_sets at hWL
  injection hWL with hW hL
  subst hW
  subst hL
  have hperm : List.Perm (List.insertionSort descBy vote_count) vote_count :=
    List.perm_insertionSort descBy vote_count
  have hfst : List.Perm ((List.insertionSort descBy vote_count).map Prod.fst)
      (vote_count.map Prod.fst) := hperm.map Prod.fst
  have hSnodup : ((List.insertionSort descBy vote_count).map Prod.fst).Nodup :=
    (hfst.nodup_iff).mpr hnd
  have happ : ((List.insertionSort descBy vote_count).take n_winners).map Prod.fst ++
      ((List.insertionSort descBy vote_count).drop n_winners).map Prod.fst =
      (List.insertionSort descBy vote_count).map Prod.fst := by
    rw [← List.map_append, List.take_append_drop]
  refine ⟨?_, ?_, ?_, ?_⟩
  · exact List.disjoint_of_nodup_append (happ ▸ hSnodup)
  · rw [happ]
    exact hfst
  · rw [List.length_map, List.length_take, List.length_insertionSort]
    exact min_eq_left hn2
  · intro w hw l hl vw vl hvw hvl
    obtain ⟨pw, hpw, rfl⟩ := List.mem_map.mp hw
    obtain ⟨pl, hpl, rfl⟩ := List.mem_map.mp hl
    have hsorted : List.Sorted descBy (List.insertionSort descBy vote_count) :=
      List.sorted_insertionSort descBy vote_count
    have hrel : descBy pw pl := hsorted.rel_of_mem_take_of_mem_drop hpw hpl
    have hpwv : lookupA vote_count pw.1 = some pw.2 :=
      lookupA_eq_of_mem hnd (hperm.mem_iff.mp (List.mem_of_mem_take hpw))
    have hplv : lookupA vote_count pl.1 = some pl.2 :=
      lookupA_eq_of_mem hnd (hperm.mem_iff.mp (List.mem_of_mem_drop hpl))
    rw [hpwv] at hvw
    rw [hplv] at hvl
    obtain rfl : pw.2 = vw := Option.some_inj.mp hvw
    obtain rfl : pl.2 = vl := Option.some_inj.mp hvl
    exact hrel

/-- Witness for C7 at a concrete three-candidate count with two winners. -/
theorem C7_get_W_L_sets_partition_witness :
    ([2, 0] : List ℕ).Disjoint [1] ∧
    (([2, 0] : List ℕ) ++ [1]).Perm ([((0 : ℕ), (5 : ℕ)), (1, 3), (2, 7)].map Prod.fst) ∧
    ([2, 0] : List ℕ).length = 2 ∧
    ∀ w ∈ ([2, 0] : List ℕ), ∀ l ∈ ([1] : List ℕ), ∀ vw vl,
      lookupA [((0 : ℕ), (5 : ℕ)), (1, 3), (2, 7)] w = some vw →
      lookupA [((0 : ℕ), (5 : ℕ)), (1, 3), (2, 7)] l = some vl → vl ≤ vw :=
  C7_get_W_L_sets_partition [((0 : ℕ), (5 : ℕ)), (1, 3), (2, 7)] 2 [2, 0] [1]
    (by decide) (by decide) (by decide) (by decide)

/-- Characterization of membership in the pseudo-candidate list. -/
theorem mem_pseudo_iff (parties : List String) (vote_count members : String → ℕ)
    (n_winners : ℕ) (x : (String × ℕ) × ℚ) :
    x ∈ pseudo_vote_count parties vote_count members n_winners ↔
      x.1.1 ∈ parties ∧ x.1.1 ≠ "" ∧ x.1.2 < min n_winners (members x.1.1) ∧
        x.2 = (vote_count x.1.1 : ℚ) / (d x.1.2 : ℚ) := by
  unfold pseudo_vote_count
  constructor
  · intro hx
    obtain ⟨p, hp, hx2⟩ := List.mem_flatMap.mp hx
    obtain ⟨i, hi, rfl⟩ := List.mem_map.mp hx2
    obtain ⟨hp1, hp2⟩ := List.mem_filter.mp hp
    refine ⟨hp1, by simpa using hp2, by simpa using hi, rfl⟩
  · rintro ⟨h1, h2, h3, h4⟩
    obtain ⟨⟨p, i⟩, v⟩ := x
    dsimp only at h1 h2 h3 h4
    subst h4
    refine List.mem_flatMap.mpr ⟨p, List.mem_filter.mpr ⟨h1, by simpa using h2⟩, ?_⟩
    exact List.mem_map.mpr ⟨i, by simpa using h3, rfl⟩

/-- C10: rows with a missing or empty party are grouped under the
empty-string party, whose votes enter the party vote count; but every
pseudo-candidate carries a non-empty party, so the empty-string party can
never appear in the winner set W of a D'Hondt audit. -/
theorem C10_empty_party_counted_but_never_wins (rows : List Row) (n_winners : ℕ) :
    partyVoteCount rows "" =
      ((rows.filter fun r => r.party = none ∨ r.party = some "").map Row.votes).sum ∧
    (∀ x ∈ pseudo_vote_count (partiesOf rows) (partyVoteCount rows)
      (membersCount rows) n_winners, x.1.1 ≠ "") ∧
    (∀ idx ∈ (get_W_L_sets (pseudo_vote_count (partiesOf rows) (partyVoteCount rows)
      (membersCount rows) n_winners) n_winners).1, idx.1 ≠ "") := by
  refine ⟨?_, ?_, ?_⟩
  · unfold partyVoteCount
    have : rows.filter (fun r => fillParty r = "") =
        rows.filter fun r => r.party = none ∨ r.party = some "" := by
      apply List.filter_congr
      intro r _
      cases hp : r.party with
      | none => simp [fillParty, hp]
      | some s => simp [fillParty, hp]
    rw [this]
  · intro x hx
    exact ((mem_pseudo_iff _ _ _ _ x).mp hx).2.1
  · intro idx hidx
    unfold get_W_L_sets at hidx
    obtain ⟨pr, hpr, rfl⟩ := List.mem_map.mp hidx
    have hprS : pr ∈ List.insertionSort descBy (pseudo_vote_count (partiesOf rows)
        (partyVoteCount rows) (membersCount rows) n_winners) := List.mem_of_mem_take hpr
    have hprP := (List.perm_insertionSort descBy _).mem_iff.mp hprS
    exact ((mem_pseudo_iff _ _ _ _ pr).mp hprP).2.1

theorem pseudo_keys_nodup (parties : List String) (vote_count members : String → ℕ)
    (n_winners : ℕ) (hnd : parties.Nodup) :
    ((pseudo_vote_count parties vote_count members n_winners).map Prod.fst).Nodup := by
  unfold pseudo_vote_count
  rw [List.map_flatMap]
  apply List.nodup_flatMap.mpr
  constructor
  · intro p _
    rw [List.map_map]
    exact (List.nodup_range _).map (fun i j hij => by
      simpa using congrArg Prod.snd hij)
  · have hfil : (parties.filter fun p => p ≠ "").Nodup := hnd.filter _
    refine hfil.imp ?_
    intro p q hpq
    intro x hx hy
    simp only [List.map_map, List.mem_map, List.mem_range, Function.comp] at hx hy
    obtain ⟨i, -, rfl⟩ := hx
    obtain ⟨j, -, hj⟩ := hy
    exact hpq ((congrArg Prod.fst hj).symm)

theorem range_pair_sublist {j i m : ℕ} (hji : j < i) (him : i < m) :
    List.Sublist [j, i] (List.range m) := by
  have h1 : List.Sublist [j] (List.range i) :=
    List.singleton_sublist.mpr (List.mem_range.mpr hji)
  have h2 : List.Sublist ([j] ++ [i]) (List.range i ++ [i]) :=
    h1.append (List.Sublist.refl [i])
  rw [← List.range_succ] at h2
  exact h2.trans (List.range_sublist.mpr him)

/-- Within one party's block of the pseudo-candidate list, the pair of
entries at seat indices j < i forms a sublist of the whole list. -/
theorem pseudo_pair_sublist (parties : List String) (vote_count members : String → ℕ)
    (n_winners : ℕ) (p : String) (i j : ℕ) (hp : p ∈ parties.filter fun q => q ≠ "")
    (hji : j < i) (hi : i < min n_winners (members p)) :
    List.Sublist
      [((p, j), (vote_count p : ℚ) / (d j : ℚ)), ((p, i), (vote_count p : ℚ) / (d i : ℚ))]
      (pseudo_vote_count parties vote_count members n_winners) := by
  obtain ⟨l1, l2, hsplit⟩ := List.append_of_mem hp
  unfold pseudo_vote_count
  rw [hsplit, List.flatMap_append, List.flatMap_cons]
  have hblock : List.Sublist
      [((p, j), (vote_count p : ℚ) / (d j : ℚ)), ((p, i), (vote_count p : ℚ) / (d i : ℚ))]
      ((List.range (min n_winners (members p))).map fun k =>
        ((p, k), (vote_count p : ℚ) / (d k : ℚ))) := by
    have := (range_pair_sublist hji hi).map
      (fun k => ((p, k), (vote_count p : ℚ) / (d k : ℚ)))
    simpa using this
  exact ((hblock.trans (List.sublist_append_left _ _)).trans
    (List.sublist_append_right _ _))

/-- The pseudo-candidate value is antitone in the seat index. -/
theorem pseudo_val_mono (v : ℕ) {j i : ℕ} (hji : j ≤ i) :
    (v : ℚ) / (d i : ℚ) ≤ (v : ℚ) / (d j : ℚ) := by
  unfold d
  have h0 : (0 : ℚ) ≤ (v : ℚ) := by positivity
  have hj : (0 : ℚ) < ((j : ℚ) + 1) := by positivity
  have hij : ((j : ℚ) + 1) ≤ ((i : ℚ) + 1) := by
    have : (j : ℚ) ≤ (i : ℚ) := by exact_mod_cast hji
    linarith
  have e1 : ((i + 1 : ℕ) : ℚ) = (i : ℚ) + 1 := by push_cast; ring
  have e2 : ((j + 1 : ℕ) : ℚ) = (j : ℚ) + 1 := by push_cast; ring
  rw [e1, e2]
  gcongr

/-- In a duplicate-free list, if the pair [a, b] occurs as a sublist and b
lies in the first n elements, then so does a. -/
theorem mem_take_of_pair_sublist {α : Type} {a b : α} {S : List α} {n : ℕ}
    (hnd : S.Nodup) (hsub : List.Sublist [a, b] S) (hb : b ∈ S.take n) :
    a ∈ S.take n := by
  rw [← List.take_append_drop n S] at hnd hsub
  obtain ⟨hnd1, hnd2, hdisj⟩ := List.nodup_append.mp hnd
  obtain ⟨l1, l2, hl, h1, h2⟩ := List.sublist_append_iff.mp hsub
  rcases l1 with - | ⟨x, l1t⟩
  · simp only [List.nil_append] at hl
    subst hl
    exact absurd (h2.subset (by simp)) (hdisj hb)
  · rcases l1t with - | ⟨y, l1tt⟩
    · simp only [List.cons_append, List.nil_append, List.cons.injEq] at hl
      obtain ⟨rfl, hl2⟩ := hl
      subst hl2
      exact absurd (h2.subset (by simp)) (hdisj hb)
    · have hlen := congrArg List.length hl
      simp only [List.length_append, List.length_cons, List.length_nil] at hlen
      have h1tt : l1tt = [] := List.length_eq_zero.mp (by omega)
      have h2n : l2 = [] := List.length_eq_zero.mp (by omega)
      subst h1tt
      subst h2n
      simp only [List.append_nil] at hl h1
      simp only [List.cons.injEq, and_true] at hl
      obtain ⟨rfl, rfl⟩ := hl
      exact h1.subset (by simp)

theorem le_foldr_max_nat (l : List ℕ) (x : ℕ) (hx : x ∈ l) : x ≤ l.foldr max 0 := by
  induction l with
  | nil => simp at hx
  | cons a as ih =>
    rcases List.mem_cons.mp hx with rfl | hx2
    · exact le_max_left _ _
    · exact le_trans (ih hx2) (le_max_right _ _)

theorem foldr_max_nat_mem (l : List ℕ) (hne : l ≠ []) : l.foldr max 0 ∈ l := by
  induction l with
  | nil => exact absurd rfl hne
  | cons a as ih =>
    cases as with
    | nil => simp
    | cons b bs =>
      rcases max_choice a ((b :: bs).foldr max 0) with h | h
      · simp only [List.foldr_cons] at h ⊢
        rw [h]
        exact List.mem_cons_self ..
      · simp only [List.foldr_cons] at h ⊢
        rw [h]
        exact List.mem_cons_of_mem _ (ih (by simp))

theorem length_filter_split {α : Type} (l : List α) (p : α → Bool) :
    (l.filter p).length + (l.filter fun a => !(p a)).length = l.length := by
  induction l with
  | nil => rfl
  | cons a as ih =>
    by_cases h : p a
    · simp [List.filter_cons, h, ih]
      omega
    · simp [List.filter_cons, h, ih]
      omega

/-- Every element of W carries a key from the (duplicate-free) list parties,
so the per-party occurrence counts add up to the length of W. -/
theorem sum_counts_eq_length (parties : List String) (W : List (String × ℕ))
    (hnd : parties.Nodup) (hcov : ∀ x ∈ W, x.1 ∈ parties) :
    ((parties.map fun p => (W.filter fun x => x.1 = p).length).sum) = W.length := by
  induction parties generalizing W with
  | nil =>
    have : W = [] := List.eq_nil_iff_forall_not_mem.mpr fun x hx => by simpa using hcov x hx
    simp [this]
  | cons p ps ih =>
    simp only [List.nodup_cons] at hnd
    obtain ⟨hp, hps⟩ := hnd
    simp only [List.map_cons, List.sum_cons]
    have hrest : ∀ q ∈ ps, (W.filter fun x => x.1 = q) =
        ((W.filter fun x => !(decide (x.1 = p))).filter fun x => x.1 = q) := by
      intro q hq
      rw [List.filter_filter]
      apply List.filter_congr
      intro x _
      have hqp : ¬ q = p := fun h => hp (h ▸ hq)
      by_cases hxq : x.1 = q
      · simp [hxq, hqp]
      · simp [hxq]
    have hmap : (ps.map fun q => (W.filter fun x => x.1 = q).length) =
        ps.map fun q =>
          (((W.filter fun x => !(decide (x.1 = p))).filter fun x => x.1 = q)).length := by
      apply List.map_congr_left
      intro q hq
      rw [hrest q hq]
    rw [hmap, ih ((W.filter fun x => !(decide (x.1 = p)))) hps ?_]
    · have := length_filter_split W (fun x => decide (x.1 = p))
      omega
    · intro x hx
      obtain ⟨hxW, hxp⟩ := List.mem_filter.mp hx
      rcases List.mem_cons.mp (hcov x hxW) with h | h
      · simp [h] at hxp
      · exact h

/-- A duplicate-free, nonempty, downward-closed list of naturals is an
enumeration of 0..max, so its length is max + 1. -/
theorem nodup_downward_closed_length {l : List ℕ} (hnd : l.Nodup) (hne : l ≠ [])
    (hdc : ∀ i ∈ l, ∀ j, j ≤ i → j ∈ l) :
    l.length = l.foldr max 0 + 1 := by
  have h1 : l.toFinset = Finset.range (l.foldr max 0 + 1) := by
    ext x
    simp only [List.mem_toFinset, Finset.mem_range]
    constructor
    · intro hx
      exact Nat.lt_succ_of_le (le_foldr_max_nat l x hx)
    · intro hx
      exact hdc _ (foldr_max_nat_mem l hne) x (Nat.lt_succ_iff.mp hx)
  have h2 := List.toFinset_card_of_nodup hnd
  rw [h1, Finset.card_range] at h2
  omega

theorem sum_filter_map_eq {α : Type} (l : List α) (q : α → Bool) (f g : α → ℕ)
    (h1 : ∀ p ∈ l, q p = true → f p = g p) (h2 : ∀ p ∈ l, q p = false → g p = 0) :
    ((l.filter q).map f).sum = (l.map g).sum := by
  induction l with
  | nil => rfl
  | cons a as ih =>
    have ih2 := ih (fun p hp => h1 p (List.mem_cons_of_mem _ hp))
      (fun p hp => h2 p (List.mem_cons_of_mem _ hp))
    by_cases hq : q a
    · simp only [List.filter_cons, hq, if_true, List.map_cons, List.sum_cons, ih2,
        h1 a (List.mem_cons_self ..) hq]
    · have hq0 : q a = false := by simpa using hq
      simp only [List.filter_cons, hq0, Bool.false_eq_true, if_false, List.map_cons,
        List.sum_cons, ih2, h2 a (List.mem_cons_self ..) hq0]
      omega

/-- C4: in a D'Hondt audit with at least n_winners pseudo-candidates, the
seat counts awarded to the winning parties (1 plus the largest seat index
each party holds in W) sum to exactly n_winners. -/
theorem C4_dhondt_awarded_seats_sum (parties : List String)
    (vote_count members : String → ℕ) (n_winners : ℕ) (hnd : parties.Nodup)
    (hlen : n_winners ≤ (pseudo_vote_count parties vote_count members n_winners).length) :
    awarded_seats parties
      (get_W_L_sets (pseudo_vote_count parties vote_count members n_winners) n_winners).1 =
      n_winners := by
  set P := pseudo_vote_count parties vote_count members n_winners with hP
  set S := List.insertionSort descBy P with hS
  have hWid : (get_W_L_sets P n_winners).1 = (S.take n_winners).map Prod.fst := rfl
  rw [hWid]
  set W := (S.take n_winners).map Prod.fst with hW
  have hperm : List.Perm S P := List.perm_insertionSort descBy P
  have hPk : (P.map Prod.fst).Nodup :=
    pseudo_keys_nodup parties vote_count members n_winners hnd
  have hPn : P.Nodup := hPk.of_map
  have hSn : S.Nodup := hperm.nodup_iff.mpr hPn
  have hSk : (S.map Prod.fst).Nodup := (hperm.map Prod.fst).nodup_iff.mpr hPk
  have hWkn : W.Nodup := by
    rw [hW, List.map_take]
    exact List.Nodup.sublist (List.take_sublist ..) hSk
  have hmemP : ∀ x ∈ W, ∃ v : ℚ, (x, v) ∈ P ∧ x.1 ∈ parties ∧ x.1 ≠ "" ∧
      x.2 < min n_winners (members x.1) ∧ v = (vote_count x.1 : ℚ) / (d x.2 : ℚ) := by
    intro x hx
    obtain ⟨pr, hprT, rfl⟩ := List.mem_map.mp hx
    have hprP : pr ∈ P := hperm.mem_iff.mp (List.mem_of_mem_take hprT)
    have hchar := (mem_pseudo_iff parties vote_count members n_winners pr).mp hprP
    exact ⟨pr.2, by simpa using hprP, hchar.1, hchar.2.1, hchar.2.2.1, hchar.2.2.2⟩
  have hpref : ∀ p i j, (p, i) ∈ W → j ≤ i → (p, j) ∈ W := by
    intro p i j hpi hji
    rcases Nat.eq_or_lt_of_le hji with rfl | hjlt
    · exact hpi
    obtain ⟨pr, hprT, hpr1⟩ := List.mem_map.mp hpi
    obtain ⟨prid, prv⟩ := pr
    dsimp only at hpr1
    subst hpr1
    have hprP : ((p, i), prv) ∈ P := hperm.mem_iff.mp (List.mem_of_mem_take hprT)
    have hchar := (mem_pseudo_iff parties vote_count members n_winners ((p, i), prv)).mp hprP
    obtain ⟨hpar, hpne, hlt, hval⟩ := hchar
    dsimp only at hpar hpne hlt hval
    subst hval
    have hpfil : p ∈ parties.filter fun q => q ≠ "" :=
      List.mem_filter.mpr ⟨hpar, by simpa using hpne⟩
    have hsubP := pseudo_pair_sublist parties vote_count members n_winners p i j
      hpfil hjlt hlt
    have hrel : descBy ((p, j), (vote_count p : ℚ) / (d j : ℚ))
        ((p, i), (vote_count p : ℚ) / (d i : ℚ)) :=
      pseudo_val_mono (vote_count p) (le_of_lt hjlt)
    have hsubS := List.pair_sublist_insertionSort hrel hsubP
    have hxtake := mem_take_of_pair_sublist hSn hsubS hprT
    exact List.mem_map.mpr ⟨_, hxtake, rfl⟩
  have hcov : ∀ x ∈ W, x.1 ∈ parties := fun x hx => (hmemP x hx).choose_spec.2.1
  have hcount : ∀ p, (W.any fun x => x.1 = p) = true →
      (W.filter fun x => x.1 = p).length = maxSeatIdx W p + 1 := by
    intro p hwin
    have hnodupf : (W.filter fun x => x.1 = p).Nodup := hWkn.filter _
    have hIpnd : ((W.filter fun x => x.1 = p).map Prod.snd).Nodup := by
      apply hnodupf.map_on
      intro x hx y hy hxy
      have hx1 : x.1 = p := by simpa using (List.mem_filter.mp hx).2
      have hy1 : y.1 = p := by simpa using (List.mem_filter.mp hy).2
      exact Prod.ext (hx1.trans hy1.symm) hxy
    have hIne : ((W.filter fun x => x.1 = p).map Prod.snd) ≠ [] := by
      obtain ⟨x, hxW, hxp⟩ := List.any_eq_true.mp hwin
      have hxmem : x ∈ W.filter fun y => y.1 = p :=
        List.mem_filter.mpr ⟨hxW, hxp⟩
      intro hemp
      rw [List.map_eq_nil_iff] at hemp
      rw [hemp] at hxmem
      simp at hxmem
    have hdc : ∀ i ∈ (W.filter fun x => x.1 = p).map Prod.snd, ∀ j, j ≤ i →
        j ∈ (W.filter fun x => x.1 = p).map Prod.snd := by
      intro i hi j hji
      obtain ⟨x, hxf, hx2⟩ := List.mem_map.mp hi
      obtain ⟨hxW, hx1⟩ := List.mem_filter.mp hxf
      have hx1' : x.1 = p := by simpa using hx1
      have hxpi : (p, i) ∈ W := by
        have hx : x = (p, i) := Prod.ext hx1' hx2
        rwa [hx] at hxW
      exact List.mem_map.mpr ⟨(p, j),
        List.mem_filter.mpr ⟨hpref p i j hxpi hji, by simp⟩, rfl⟩
    have hfin := nodup_downward_closed_length hIpnd hIne hdc
    rw [List.length_map] at hfin
    unfold maxSeatIdx
    omega
  have hzero : ∀ p, (W.any fun x => x.1 = p) = false →
      (W.filter fun x => x.1 = p).length = 0 := by
    intro p hlose
    rw [List.length_eq_zero]
    rw [List.filter_eq_nil_iff]
    intro x hxW
    intro hx1
    rw [List.any_eq_false] at hlose
    exact absurd hx1 (by simpa using hlose x hxW)
  unfold awarded_seats
  rw [sum_filter_map_eq parties (fun party => W.any fun x => x.1 = party)
    (fun party => maxSeatIdx W party + 1)
    (fun party => (W.filter fun x => x.1 = party).length)
    (fun p _ hq => (hcount p hq).symm)
    (fun p _ hq => hzero p hq)]
  rw [sum_counts_eq_length parties W hnd hcov]
  rw [hW, List.length_map, List.length_take, List.length_insertionSort]
  exact min_eq_left hlen

/-- Witness for C4: two parties with 6 and 3 votes, three members each,
three seats; the awarded seats sum to 3 (P gets 2, Q gets 1). -/
theorem C4_dhondt_awarded_seats_sum_witness :
    awarded_seats ["P", "Q"]
      (get_W_L_sets (pseudo_vote_count ["P", "Q"]
        (fun p => if p = "P" then 6 else 3) (fun _ => 3) 3) 3).1 = 3 :=
  C4_dhondt_awarded_seats_sum ["P", "Q"] (fun p => if p = "P" then 6 else 3)
    (fun _ => 3) 3 (by decide) (by decide)

end RLA
